import Mathlib

/-!
Shallow embedding of `src/main.py` (ksapp): a FastAPI endpoint that matches
shipping-label PDF pages against an order-manifest spreadsheet and overlays a
packing-contents table on each matched page.

Conventions of the embedding:
* Python strings are Lean `String`; character-level operations (`upper`,
  `strip`, lexicographic comparison, `int(...)` parsing) are re-implemented
  over `String.data` so that they evaluate inside the kernel.
* Python floats (page coordinates) are modelled as `ℚ`; Python `int(...)`
  truncation toward zero is `pyTrunc`.
* The spreadsheet reader, the regex engine, and the PDF/canvas libraries are
  external collaborators: rows arrive as `Row` values, regex search arrives
  as an abstract `findall` function, and page composition is recorded as a
  list of `OutPage` decisions rather than rendered bytes.
* Fallible Python code (an exception aborting the request) is `Except`.
-/

namespace KsApp

/-- Decidable equality of request outcomes, so that concrete runs of the
pipeline can be checked by evaluation. -/
instance {ε α : Type} [DecidableEq ε] [DecidableEq α] : DecidableEq (Except ε α) := fun a b =>
  match a, b with
  | .ok x, .ok y => decidable_of_iff (x = y) (by simp)
  | .ok _, .error _ => isFalse (by simp)
  | .error _, .ok _ => isFalse (by simp)
  | .error e, .error f => decidable_of_iff (e = f) (by simp)

/-! ### Character/string primitives (Python `str.upper`, `str.strip`, `<`, `int`) -/

/-- Python `str.upper()` on one ASCII character: `chr(ord(c) - 32)` for `a`..`z`. -/
def upChar (c : Char) : Char :=
  if 97 ≤ c.toNat ∧ c.toNat ≤ 122 then Char.ofNat (c.toNat - 32) else c

/-- Python `str.upper()`. -/
def upStr (s : String) : String := ⟨s.data.map upChar⟩

/-- Default whitespace stripped by Python `str.strip()`. -/
def isSpaceChar (c : Char) : Bool :=
  c = ' ' || c = '\t' || c = '\n' || c = '\x0d' || c = '\x0b' || c = '\x0c'

/-- Python `str.strip()`. -/
def trimStr (s : String) : String :=
  ⟨((s.data.dropWhile isSpaceChar).reverse.dropWhile isSpaceChar).reverse⟩

/-- `str(cell).strip().upper()` applied to a tracking cell (main.py line 180). -/
def normTrack (s : String) : String := upStr (trimStr s)

/-- Python `a in b` on strings: `a` occurs contiguously inside `b`. -/
def isSubstrOf (a b : String) : Bool := decide (a.data <:+: b.data)

/-- Lexicographic comparison of code-point lists, as Python compares `str`. -/
def lexLe : List Char → List Char → Bool
  | [], _ => true
  | _ :: _, [] => false
  | a :: as, b :: bs =>
    if a.toNat < b.toNat then true
    else if b.toNat < a.toNat then false
    else lexLe as bs

/-- One decimal digit of a Python `int(...)` literal. -/
def decDigit? (c : Char) : Option ℕ :=
  if 48 ≤ c.toNat ∧ c.toNat ≤ 57 then some (c.toNat - 48) else none

/-- Value of a nonempty all-digit run; `none` when empty or non-digit. -/
def digitsVal (l : List Char) : Option ℕ :=
  if l = [] then none
  else l.foldl (fun acc c => acc.bind (fun a => (decDigit? c).map (fun d => 10 * a + d))) (some 0)

/-- Python `int(s)` on a string: optional surrounding whitespace, optional
sign, then decimal digits; anything else raises (here: `none`). -/
def pyIntOfString (s : String) : Option ℤ :=
  match (trimStr s).data with
  | '-' :: rest => (digitsVal rest).map (fun n => -(n : ℤ))
  | '+' :: rest => (digitsVal rest).map (fun n => (n : ℤ))
  | t => (digitsVal t).map (fun n => (n : ℤ))

/-- Python `int(q)` on a float value: truncation toward zero. -/
def pyTrunc (q : ℚ) : ℤ := q.num.tdiv q.den

/-! ### `extract_all_awb_candidates` (main.py lines 22-47)

The nine courier regex patterns; `re.findall` itself belongs to the external
regex library, so extraction is parameterised by an abstract `findall`. -/

inductive AwbPattern
  | spxid | spxVariant | shopeeOrder | jt | jx | tkp | idlex | lex | general
  deriving DecidableEq

/-- The ordered pattern list of `extract_all_awb_candidates`. -/
def awbPatterns : List AwbPattern :=
  [.spxid, .spxVariant, .shopeeOrder, .jt, .jx, .tkp, .idlex, .lex, .general]

/-- The concatenated, upper-cased match lists of all pattern passes, in pass
order: the `candidates` list before de-duplication. -/
def rawCandidates (findall : AwbPattern → String → List String) (text : String) :
    List String :=
  ((awbPatterns.map (fun p => (findall p text).map upStr))).flatten

/-- The de-duplication loop of `extract_all_awb_candidates`: `seen` is the
set built so far, first occurrences are kept in order. -/
def dedupeSeen (seen : List String) : List String → List String
  | [] => []
  | c :: cs => if c ∈ seen then dedupeSeen seen cs else c :: dedupeSeen (c :: seen) cs

/-- First-occurrence de-duplication (`seen = set(); unique = []` loop). -/
def dedupeFirst (l : List String) : List String := dedupeSeen [] l

/-- `extract_all_awb_candidates`: all pattern matches, upper-cased, first
occurrences kept in order. -/
def extract_all_awb_candidates (findall : AwbPattern → String → List String)
    (text : String) : List String :=
  dedupeFirst (rawCandidates findall text)

/-! ### `find_matching_awb` (main.py lines 50-58) -/

/-- `candidate in known or known in candidate`. -/
def substrEither (c k : String) : Bool := isSubstrOf c k || isSubstrOf k c

/-- `find_matching_awb`: for each candidate in order, first the exact
membership test, then immediately the bidirectional substring scan over the
known set, before the next candidate is considered. The Python `known_awbs`
set is determinised as a list. -/
def find_matching_awb : List String → List String → Option String
  | [], _ => none
  | c :: cs, known =>
    if c ∈ known then some c
    else
      match known.find? (fun k => substrEither c k) with
      | some k => some k
      | none => find_matching_awb cs known

/-! ### `calculate_available_rows` (main.py lines 115-122) -/

/-- `calculate_available_rows(page_height, clear_start_y, row_height=18,
margin_bottom=30)`: truncated division of the remaining height, minus one
header row, floored at 1. -/
def calculate_available_rows (page_height clear_start_y : ℚ) : ℤ :=
  let available_height := page_height - clear_start_y - 30
  max 1 (pyTrunc (available_height / 18) - 1)

/-! ### Manifest loading (main.py lines 150-191) -/

/-- A spreadsheet cell as pandas hands it over: missing (`NaN`/`None`),
numeric, or textual. -/
inductive Cell
  | na
  | num (q : ℚ)
  | text (s : String)
  deriving DecidableEq

/-- One manifest row after column normalization: the three used cells.
`awb` and `msku` are already `str(...)`-converted as in the source. -/
structure Row where
  awb : String
  msku : String
  jumlah : Cell
  deriving DecidableEq

/-- One line item stored in the index: `{'msku': ..., 'jumlah': ...}`. -/
structure Item where
  msku : String
  jumlah : ℤ
  deriving DecidableEq

/-- Error message of a failed `int(...)` conversion. -/
def intConvError : String := "invalid literal for int()"

/-- `int(row['Jumlah']) if pd.notna(row['Jumlah']) else 1` (main.py line 187):
a missing cell defaults to 1, a numeric cell truncates, a textual cell must
parse as an integer or the exception aborts the request. -/
def itemJumlah : Cell → Except String ℤ
  | .na => .ok 1
  | .num q => .ok (pyTrunc q)
  | .text s =>
    match pyIntOfString s with
    | some n => .ok n
    | none => .error intConvError

/-- The null sentinels excluded by the loader (main.py line 181). -/
def nullSentinels : List String := ["NAN", "NONE", "NULL", ""]

/-- `if awb and awb not in ['NAN','NONE','NULL','']`. -/
def validAwbB (a : String) : Bool := !(a = "") && !(a ∈ nullSentinels)

/-- Insertion-order dictionary with per-key append, modelling
`awb_to_items[awb].append(item)`. -/
abbrev Index := List (String × List Item)

/-- Dictionary lookup `awb_to_items[k]` / `k in awb_to_items`. -/
def lookupIdx : Index → String → Option (List Item)
  | [], _ => none
  | (k', its) :: rest, k => if k' = k then some its else lookupIdx rest k

/-- Append `it` under key `k`, creating the key at the end on first use. -/
def insertItem : Index → String → Item → Index
  | [], k, it => [(k, [it])]
  | (k', its) :: rest, k, it =>
    if k' = k then (k', its ++ [it]) :: rest else (k', its) :: insertItem rest k it

/-- The row loop of `process_labels` (lines 179-188): normalize the tracking
cell, skip blank/sentinel values, parse the quantity (which can raise), and
append the item under its key. -/
def buildIndexAux : Index → List Row → Except String Index
  | idx, [] => .ok idx
  | idx, r :: rs =>
    let awb := normTrack r.awb
    if validAwbB awb then
      match itemJumlah r.jumlah with
      | .error e => .error e
      | .ok j => buildIndexAux (insertItem idx awb ⟨r.msku, j⟩) rs
    else buildIndexAux idx rs

/-- Sort order used by `sort(key=lambda x: x['msku'])`: code-point
lexicographic order on the SKU. -/
def mskuLeRel (a b : Item) : Prop := lexLe a.msku.data b.msku.data = true

instance : DecidableRel mskuLeRel := fun a b =>
  inferInstanceAs (Decidable (lexLe a.msku.data b.msku.data = true))

/-- The per-key stable sort loop of lines 190-191. -/
def sortIndex (idx : Index) : Index :=
  idx.map (fun p => (p.1, List.insertionSort mskuLeRel p.2))

/-- `awb_to_items` as it is after lines 179-191: built row by row, then each
item list sorted by SKU. -/
def awb_to_items (rows : List Row) : Except String Index :=
  (buildIndexAux [] rows).map sortIndex

/-- `all_awbs`: the set of valid normalized tracking values, determinised in
first-occurrence row order. -/
def all_awbs (rows : List Row) : List String :=
  dedupeFirst (((rows.map (fun r => normTrack r.awb))).filter validAwbB)

/-- The parsed item of one row, when its quantity cell converts. -/
def rowItem (r : Row) : Option Item :=
  match itemJumlah r.jumlah with
  | .ok j => some ⟨r.msku, j⟩
  | .error _ => none

/-- Row-order items of all valid rows whose normalized tracking value is `k`:
the list `awb_to_items[k]` holds just before the SKU sort. -/
def itemsFor (rows : List Row) (k : String) : List Item :=
  (rows.filter (fun r => validAwbB (normTrack r.awb) && normTrack r.awb = k)).filterMap rowItem

/-! ### Column-alias normalization (main.py lines 157-173) -/

/-- `col_mapping`: canonical column name to its accepted aliases. -/
def col_mapping : List (String × List String) :=
  [("AWB/No. Tracking",
      ["AWB/No. Tracking", "AWB", "No. Tracking", "Tracking Number", "Resi", "No Resi"]),
   ("MSKU", ["MSKU", "SKU", "Nama SKU", "Product SKU", "Master SKU"]),
   ("Jumlah", ["Jumlah", "Qty", "Quantity", "QTY"])]

/-- `df.rename(columns={alt: target})`: every column named `alt` becomes
`target`. -/
def renameCol (cols : List String) (alt target : String) : List String :=
  cols.map (fun c => if c = alt then target else c)

/-- One iteration of the alias loop: if the canonical name is absent, the
first present alias is renamed to it. -/
def applyAlias (cols : List String) (target : String) (alts : List String) :
    List String :=
  if target ∈ cols then cols
  else
    match alts.find? (fun a => decide (a ∈ cols)) with
    | some alt => renameCol cols alt target
    | none => cols

/-- The full alias-normalization loop over `col_mapping`. -/
def normalizeColumns (cols : List String) : List String :=
  col_mapping.foldl (fun cs p => applyAlias cs p.1 p.2) cols

/-- `required_cols` (main.py line 170). -/
def required_cols : List String := ["AWB/No. Tracking", "MSKU", "Jumlah"]

/-- `missing = [col for col in required_cols if col not in df.columns]`. -/
def missingColumns (cols : List String) : List String :=
  required_cols.filter (fun c => !(c ∈ normalizeColumns cols))

/-! ### Page scanning and composition (main.py lines 195-312) -/

/-- One scanned input page: its index, geometry, detected clear-region start,
and raw extracted text. -/
structure ScanPage where
  page_num : ℕ
  width : ℚ
  height : ℚ
  clear_start_y : ℚ
  text : String
  deriving DecidableEq

/-- A scanned page after match resolution (the `all_pages` record). -/
structure PageRec where
  page_num : ℕ
  width : ℚ
  height : ℚ
  clear_start_y : ℚ
  awb : Option String
  deriving DecidableEq

/-- Lines 201-218: extract candidates from the page text and resolve them
against the known tracking numbers. -/
def scanPage (findall : AwbPattern → String → List String) (known : List String)
    (sp : ScanPage) : PageRec :=
  { page_num := sp.page_num, width := sp.width, height := sp.height,
    clear_start_y := sp.clear_start_y,
    awb := find_matching_awb (extract_all_awb_candidates findall sp.text) known }

/-- Fixed-size splitting of the overflow items,
`for i in range(0, len(remaining), limit_extra)`. The fuel argument starts at
the list length, which always suffices for a positive chunk size; the
`fuel = 0` fallback is never reached then. -/
def chunkFuel (k : ℕ) : ℕ → List Item → List (List Item)
  | _, [] => []
  | 0, l => [l]
  | fuel + 1, l => l.take k :: chunkFuel k fuel (l.drop k)

/-- All overflow chunks of size `k`. -/
def chunkEvery (k : ℕ) (l : List Item) : List (List Item) := chunkFuel k l.length l

/-- The dynamic pagination of lines 249-257: one chunk when everything fits,
otherwise a first chunk of exactly `available_rows` items followed by
fixed-size chunks of `limit_extra = 25`. -/
def paginate (items : List Item) (available_rows : ℕ) : List (List Item) :=
  if items.length ≤ available_rows then [items]
  else items.take available_rows :: chunkEvery 25 (items.drop available_rows)

/-- One page of the assembled output document. `verbatim` is the unmodified
copy of lines 233-239; `overlay` is the duplicated original with the white
rectangle and the first table chunk (lines 261-290); `continuation` is a
synthesized overflow page (lines 291-312). -/
inductive OutPage
  | verbatim (page_num : ℕ)
  | overlay (page_num : ℕ) (awb : String) (chunk : List Item)
  | continuation (awb : String) (chunk : List Item)
  deriving DecidableEq

/-- The per-page branch of the composition loop (lines 226-312): pass the
page through untouched unless it has a matched, non-empty tracking number
with a manifest entry; otherwise emit the overlay page and its continuation
pages. -/
def composePage (idx : Index) (p : PageRec) : List OutPage :=
  match p.awb with
  | none => [.verbatim p.page_num]
  | some a =>
    if a = "" then [.verbatim p.page_num]
    else
      match lookupIdx idx a with
      | none => [.verbatim p.page_num]
      | some items =>
        let available_rows := (calculate_available_rows p.height p.clear_start_y).toNat
        match paginate items available_rows with
        | [] => []
        | c0 :: rest => .overlay p.page_num a c0 :: rest.map (.continuation a)

/-- The whole composition loop in scan order. -/
def composeAll (idx : Index) (pages : List PageRec) : List OutPage :=
  (pages.map (composePage idx)).flatten

/-! ### The endpoint (main.py lines 144-335) -/

/-- The structured error responses raised by `process_labels`. -/
inductive ApiError
  | missingColumns (missing : List String)
  | noPages
  | unexpected (msg : String)
  deriving DecidableEq

/-- The HTTP status attached to each error. -/
def ApiError.status : ApiError → ℕ
  | .missingColumns _ => 400
  | .noPages => 404
  | .unexpected _ => 500

/-- `process_labels`: normalize columns and fail on missing ones, build the
tracking index (any conversion error aborts with status 500), scan and
compose every page, and fail with 404 when the output has no pages. -/
def process_labels (findall : AwbPattern → String → List String)
    (cols : List String) (rows : List Row) (pages : List ScanPage) :
    Except ApiError (List OutPage) :=
  let missing := missingColumns cols
  if missing ≠ [] then .error (.missingColumns missing)
  else
    match awb_to_items rows with
    | .error e => .error (.unexpected e)
    | .ok idx =>
      let known := all_awbs rows
      let out := composeAll idx (pages.map (scanPage findall known))
      if out = [] then .error .noPages else .ok out

end KsApp

/-! ## Verification of the specified properties -/

namespace KsApp

theorem pyTrunc_eq_floor (q : ℚ) (h : 0 ≤ q) : pyTrunc q = ⌊q⌋ := by
  have hnum : 0 ≤ q.num := Rat.num_nonneg.mpr h
  have hden : (0 : ℤ) ≤ (q.den : ℤ) := Int.ofNat_nonneg _
  rw [pyTrunc, Int.tdiv_eq_ediv hnum hden, Rat.floor_def]

theorem pyTrunc_nonpos (q : ℚ) (h : q < 0) : pyTrunc q ≤ 0 := by
  have hnum : q.num < 0 := Rat.num_neg.mpr h
  have hden : (0 : ℤ) ≤ (q.den : ℤ) := Int.ofNat_nonneg _
  have h1 : q.num.tdiv q.den = -((-q.num).tdiv q.den) := by
    rw [← Int.neg_tdiv, neg_neg]
  have h2 : 0 ≤ (-q.num).tdiv q.den := by
    rw [Int.tdiv_eq_ediv (by omega) hden]
    exact Int.ediv_nonneg (by omega) hden
  rw [pyTrunc, h1]
  omega

/-- C3: for every page height and clear-region start, `calculate_available_rows` equals `max 1 (floor ((page_height - clear_start_y - 30) / 18) - 1)` and is always at least 1, however small or negative the remaining vertical space is. -/
theorem calculate_available_rows_floor_min_one (H y : ℚ) :
    calculate_available_rows H y = max 1 (⌊(H - y - 30) / 18⌋ - 1) ∧
    1 ≤ calculate_available_rows H y := by
  constructor
  · show (1 : ℤ) ⊔ (pyTrunc ((H - y - 30) / 18) - 1) = 1 ⊔ (⌊(H - y - 30) / 18⌋ - 1)
    rcases le_or_lt 0 ((H - y - 30) / 18) with h | h
    · rw [pyTrunc_eq_floor _ h]
    · have h1 := pyTrunc_nonpos _ h
      have h2 : ⌊(H - y - 30) / 18⌋ ≤ 0 := Int.floor_nonpos h.le
      omega
  · exact le_max_left _ _

/-- C4 counterexample: with page height 842 and `clear_start_y` 120 the code computes `available_rows = 37`, not the 38 claimed by the spec scenario: `floor ((842 - 120 - 30) / 18) - 1 = floor (692 / 18) - 1 = 38 - 1 = 37`. -/
theorem scenario_available_rows_cex :
    calculate_available_rows 842 120 = 37 ∧ calculate_available_rows 842 120 ≠ 38 := by
  have h : calculate_available_rows 842 120 = 37 := by
    unfold calculate_available_rows pyTrunc
    norm_num
    decide
  exact ⟨h, by rw [h]; decide⟩

/-- C4 amended: in the scenario the computed `available_rows` is 37, which also equals the spec formula `floor ((842 - 120 - 30) / 18) - 1`; a 2-item list still forms a single chunk and the matched label produces exactly one output page (the overlay page). -/
theorem scenario_available_rows_amended :
    calculate_available_rows 842 120 = 37 ∧
    ⌊(((842 : ℚ) - 120 - 30)) / 18⌋ - 1 = 37 ∧
    paginate [⟨"SKU-A", 2⟩, ⟨"SKU-B", 1⟩] (calculate_available_rows 842 120).toNat
      = [[⟨"SKU-A", 2⟩, ⟨"SKU-B", 1⟩]] ∧
    composePage [("SPXID123456789012", [⟨"SKU-A", 2⟩, ⟨"SKU-B", 1⟩])]
        ⟨0, 595, 842, 120, some "SPXID123456789012"⟩
      = [.overlay 0 "SPXID123456789012" [⟨"SKU-A", 2⟩, ⟨"SKU-B", 1⟩]] := by
  have h : calculate_available_rows 842 120 = 37 := by
    unfold calculate_available_rows pyTrunc
    norm_num
    decide
  refine ⟨h, ?_, ?_, ?_⟩
  · norm_num
  · rw [h]; decide
  · simp only [composePage, lookupIdx, h]
    decide

theorem flatten_chunkFuel (k : ℕ) : ∀ (fuel : ℕ) (l : List Item),
    (chunkFuel k fuel l).flatten = l := by
  intro fuel
  induction fuel with
  | zero => intro l; cases l <;> simp [chunkFuel]
  | succ n ih =>
    intro l
    cases l with
    | nil => simp [chunkFuel]
    | cons x xs =>
      simp only [chunkFuel, List.flatten_cons, ih]
      exact List.take_append_drop k (x :: xs)

theorem chunkFuel_ne_nil (k fuel : ℕ) (l : List Item) (h : l ≠ []) :
    chunkFuel k fuel l ≠ [] := by
  cases fuel <;> cases l <;> simp_all [chunkFuel]

theorem chunkFuel_shape (k : ℕ) (hk : 1 ≤ k) : ∀ (fuel : ℕ) (l : List Item),
    l.length ≤ fuel →
    (∀ c ∈ (chunkFuel k fuel l).dropLast, c.length = k) ∧
    (∀ c, (chunkFuel k fuel l).getLast? = some c → 0 < c.length ∧ c.length ≤ k) := by
  intro fuel
  induction fuel with
  | zero =>
    intro l hf
    have : l = [] := List.length_eq_zero.mp (Nat.le_zero.mp hf)
    subst this
    simp [chunkFuel]
  | succ n ih =>
    intro l hf
    cases l with
    | nil => simp [chunkFuel]
    | cons x xs =>
      by_cases hd : (x :: xs).drop k = []
      · have hle : (x :: xs).length ≤ k := by
          have := List.drop_eq_nil_iff.mp hd
          omega
        simp only [chunkFuel, hd, List.dropLast_single]
        constructor
        · intro c hc; simp at hc
        · intro c hc
          simp only [List.getLast?_singleton, Option.some.injEq] at hc
          subst hc
          simp only [List.length_take]
          constructor
          · simp only [List.length_cons] at hle ⊢
            omega
          · omega
      · have hrec := chunkFuel_ne_nil k n ((x :: xs).drop k) hd
        have hlen : ((x :: xs).drop k).length ≤ n := by
          simp only [List.length_drop, List.length_cons] at hf ⊢
          have : k < (x :: xs).length := by
            by_contra hcon
            exact hd (List.drop_eq_nil_iff.mpr (by omega))
          simp only [List.length_cons] at this
          omega
        have hklt : k < (x :: xs).length := by
          by_contra hcon
          exact hd (List.drop_eq_nil_iff.mpr (by omega))
        obtain ⟨ihd, ihl⟩ := ih ((x :: xs).drop k) hlen
        simp only [chunkFuel]
        constructor
        · intro c hc
          rw [List.dropLast_cons_of_ne_nil hrec] at hc
          rcases List.mem_cons.mp hc with h1 | h1
          · subst h1
            simp only [List.length_take]
            omega
          · exact ihd c h1
        · intro c hc
          obtain ⟨r0, rr, hrw⟩ := List.exists_cons_of_ne_nil hrec
          rw [hrw, List.getLast?_cons_cons] at hc
          exact ihl c (by rw [hrw]; exact hc)

/-- C2: for every item list and every `available_rows >= 1`, concatenating the emitted chunks reproduces the item list; when the list does not fit, the first chunk has exactly `available_rows` items, every further chunk except the last has exactly 25 items, and the last has between 1 and 25; 40 items with `available_rows = 10` give chunk sizes `[10, 25, 5]` and 3 output pages for that label. -/
theorem paginate_exhaustive_sizes (items : List Item) (avail : ℕ) (_h : 1 ≤ avail) :
    (paginate items avail).flatten = items ∧
    (avail < items.length →
      ∃ c0 rest, paginate items avail = c0 :: rest ∧ c0.length = avail ∧
        (∀ c ∈ rest.dropLast, c.length = 25) ∧
        (∀ c, rest.getLast? = some c → 0 < c.length ∧ c.length ≤ 25)) ∧
    (paginate (List.replicate 40 ⟨"A", 1⟩) 10).map List.length = [10, 25, 5] ∧
    (composePage [("JT12", List.replicate 40 ⟨"A", 1⟩)]
        ⟨0, 400, 842, 612, some "JT12"⟩).length = 3 := by
  refine ⟨?_, ?_, by decide, ?_⟩
  · unfold paginate
    by_cases hle : items.length ≤ avail
    · simp [hle]
    · simp only [hle, if_neg, if_false]
      simp only [List.flatten_cons]
      rw [chunkEvery, flatten_chunkFuel]
      exact List.take_append_drop avail items
  · intro hlt
    unfold paginate
    rw [if_neg (by omega)]
    refine ⟨items.take avail, chunkEvery 25 (items.drop avail), rfl, ?_, ?_⟩
    · simp only [List.length_take]
      omega
    · exact chunkFuel_shape 25 (by omega) _ _ (le_refl _)
  · have hca : calculate_available_rows 842 612 = 10 := by
      unfold calculate_available_rows pyTrunc
      norm_num
      decide
    simp only [composePage, lookupIdx, if_neg, hca]
    decide
theorem mem_dedupeSeen : ∀ (l seen : List String) (a : String),
    a ∈ dedupeSeen seen l ↔ a ∈ l ∧ a ∉ seen := by
  intro l
  induction l with
  | nil => simp [dedupeSeen]
  | cons c cs ih =>
    intro seen a
    by_cases hc : c ∈ seen
    · rw [dedupeSeen, if_pos hc, ih]
      constructor
      · rintro ⟨h1, h2⟩
        exact ⟨List.mem_cons_of_mem c h1, h2⟩
      · rintro ⟨h1, h2⟩
        rcases List.mem_cons.mp h1 with rfl | h1
        · exact absurd hc h2
        · exact ⟨h1, h2⟩
    · rw [dedupeSeen, if_neg hc]
      simp only [List.mem_cons, ih, List.mem_cons]
      constructor
      · rintro (rfl | ⟨h1, h2⟩)
        · exact ⟨Or.inl rfl, hc⟩
        · exact ⟨Or.inr h1, fun hs => h2 (Or.inr hs)⟩
      · rintro ⟨rfl | h1, h2⟩
        · exact Or.inl rfl
        · by_cases hac : a = c
          · exact Or.inl hac
          · exact Or.inr ⟨h1, fun hs => absurd (hs.resolve_left hac) h2⟩
  
theorem sublist_dedupeSeen : ∀ (l seen : List String), (dedupeSeen seen l).Sublist l := by
  intro l
  induction l with
  | nil => simp [dedupeSeen]
  | cons c cs ih =>
    intro seen
    by_cases hc : c ∈ seen
    · rw [dedupeSeen, if_pos hc]
      exact (ih seen).cons c
    · rw [dedupeSeen, if_neg hc]
      exact (ih (c :: seen)).cons₂ c

theorem nodup_dedupeSeen : ∀ (l seen : List String), (dedupeSeen seen l).Nodup := by
  intro l
  induction l with
  | nil => simp [dedupeSeen]
  | cons c cs ih =>
    intro seen
    by_cases hc : c ∈ seen
    · rw [dedupeSeen, if_pos hc]; exact ih seen
    · rw [dedupeSeen, if_neg hc]
      refine List.nodup_cons.mpr ⟨?_, ih (c :: seen)⟩
      intro hmem
      exact ((mem_dedupeSeen cs (c :: seen) c).mp hmem).2 (List.mem_cons_self c seen)

theorem pairwise_indexOf_dedupeSeen : ∀ (l seen : List String),
    (dedupeSeen seen l).Pairwise (fun a b => l.indexOf a < l.indexOf b) := by
  intro l
  induction l with
  | nil => simp [dedupeSeen]
  | cons c cs ih =>
    intro seen
    by_cases hc : c ∈ seen
    · rw [dedupeSeen, if_pos hc]
      refine ((ih seen).imp_of_mem ?_)
      intro a b ha hb hab
      have hac : c ≠ a := fun h => ((mem_dedupeSeen cs seen a).mp ha).2 (h ▸ hc)
      have hbc : c ≠ b := fun h => ((mem_dedupeSeen cs seen b).mp hb).2 (h ▸ hc)
      rw [List.indexOf_cons_ne _ hac, List.indexOf_cons_ne _ hbc]
      omega
    · rw [dedupeSeen, if_neg hc]
      refine List.pairwise_cons.mpr ⟨?_, ?_⟩
      · intro b hb
        have hbm := (mem_dedupeSeen cs (c :: seen) b).mp hb
        have hbc : c ≠ b := fun h => hbm.2 (h ▸ List.mem_cons_self c seen)
        rw [List.indexOf_cons_self, List.indexOf_cons_ne _ hbc]
        omega
      · refine ((ih (c :: seen)).imp_of_mem ?_)
        intro a b ha hb hab
        have hac : c ≠ a := fun h =>
          ((mem_dedupeSeen cs (c :: seen) a).mp ha).2 (h ▸ List.mem_cons_self c seen)
        have hbc : c ≠ b := fun h =>
          ((mem_dedupeSeen cs (c :: seen) b).mp hb).2 (h ▸ List.mem_cons_self c seen)
        rw [List.indexOf_cons_ne _ hac, List.indexOf_cons_ne _ hbc]
        omega

theorem toNat_ofNat_lt (n : ℕ) (h : n < 55296) : (Char.ofNat n).toNat = n := by
  have hv : n.isValidChar := Or.inl h
  simp only [Char.ofNat, dif_pos hv, Char.ofNatAux, Char.toNat]
  simp [UInt32.toNat, BitVec.toNat_ofNatLt]

theorem upChar_of_lower {c : Char} (h : 97 ≤ c.toNat ∧ c.toNat ≤ 122) :
    upChar c = Char.ofNat (c.toNat - 32) := by
  unfold upChar
  exact if_pos h

theorem upChar_of_not_lower {c : Char} (h : ¬(97 ≤ c.toNat ∧ c.toNat ≤ 122)) :
    upChar c = c := by
  unfold upChar
  exact if_neg h

theorem upChar_idem (c : Char) : upChar (upChar c) = upChar c := by
  by_cases h : 97 ≤ c.toNat ∧ c.toNat ≤ 122
  · rw [upChar_of_lower h]
    have hval := toNat_ofNat_lt (c.toNat - 32) (by omega)
    exact upChar_of_not_lower (by rw [hval]; omega)
  · rw [upChar_of_not_lower h]
    exact upChar_of_not_lower h

theorem upStr_idem (s : String) : upStr (upStr s) = upStr s := by
  cases s with
  | mk data =>
    simp only [upStr, List.map_map]
    congr 1
    exact List.map_congr_left (fun c _ => upChar_idem c)



theorem mem_rawCandidates_upper (findall : AwbPattern → String → List String)
    (text : String) (s : String) (hs : s ∈ rawCandidates findall text) :
    ∃ m, s = upStr m := by
  simp only [rawCandidates, List.mem_flatten, List.mem_map] at hs
  obtain ⟨l, ⟨p, hp, hl⟩, hsl⟩ := hs
  subst hl
  obtain ⟨m, hm, rfl⟩ := List.mem_map.mp hsl
  exact ⟨m, rfl⟩

/-- C8: for every regex oracle and input text, extraction returns a duplicate-free, upper-cased sequence that is a subsequence of the concatenated pattern matches, contains exactly the matched strings, is ordered by first occurrence across the pattern passes, and is deterministic (running it twice gives the same sequence). -/
theorem extract_candidates_nodup_upper_order (findall : AwbPattern → String → List String) (text : String) :
    (extract_all_awb_candidates findall text).Nodup ∧
    (∀ s ∈ extract_all_awb_candidates findall text, upStr s = s) ∧
    (extract_all_awb_candidates findall text).Sublist (rawCandidates findall text) ∧
    (∀ s, s ∈ extract_all_awb_candidates findall text ↔ s ∈ rawCandidates findall text) ∧
    (extract_all_awb_candidates findall text).Pairwise
      (fun a b => (rawCandidates findall text).indexOf a
        < (rawCandidates findall text).indexOf b) ∧
    extract_all_awb_candidates findall text = extract_all_awb_candidates findall text := by
  refine ⟨nodup_dedupeSeen _ _, ?_, sublist_dedupeSeen _ _, ?_, pairwise_indexOf_dedupeSeen _ _, rfl⟩
  · intro s hs
    have hmem : s ∈ rawCandidates findall text :=
      ((mem_dedupeSeen _ _ s).mp hs).1
    obtain ⟨m, rfl⟩ := mem_rawCandidates_upper findall text s hmem
    exact upStr_idem m
  · intro s
    rw [extract_all_awb_candidates, dedupeFirst, mem_dedupeSeen]
    simp

/-- C1 counterexample: with candidates `["JT123", "SPXID123456789012"]` and known numbers `["JT12345678901234", "SPXID123456789012"]`, the second candidate is an exact member of the known set, yet the matcher returns the substring match `"JT12345678901234"` triggered by the first candidate, which is not a candidate at all. So matching is not two sequential passes: the substring check runs before later candidates are tested for exact membership. -/
theorem find_matching_awb_two_pass_cex :
    find_matching_awb ["JT123", "SPXID123456789012"]
        ["JT12345678901234", "SPXID123456789012"] = some "JT12345678901234" ∧
    "SPXID123456789012" ∈ (["JT123", "SPXID123456789012"] : List String) ∧
    "SPXID123456789012" ∈ (["JT12345678901234", "SPXID123456789012"] : List String) ∧
    "JT12345678901234" ∉ (["JT123", "SPXID123456789012"] : List String) := by
  decide

/-- C1 amended: match resolution is one interleaved pass. Whenever some candidate is an exact member, a known number is returned (never `none`); a prefix of candidates with neither an exact nor a substring hit is skipped; after such a prefix, an exact-member candidate is returned itself, and a candidate with only a substring hit returns the first substring-matching known number. -/
theorem find_matching_awb_interleaved :
    (∀ cs known, (∃ c ∈ cs, c ∈ known) →
       ∃ r, find_matching_awb cs known = some r ∧ r ∈ known) ∧
    (∀ (pre cs known : List String),
       (∀ x ∈ pre, x ∉ known ∧ known.find? (fun y => substrEither x y) = none) →
       find_matching_awb (pre ++ cs) known = find_matching_awb cs known) ∧
    (∀ (pre cs known : List String) (c : String),
       (∀ x ∈ pre, x ∉ known ∧ known.find? (fun y => substrEither x y) = none) →
       c ∈ known → find_matching_awb (pre ++ c :: cs) known = some c) ∧
    (∀ (pre cs known : List String) (c k : String),
       (∀ x ∈ pre, x ∉ known ∧ known.find? (fun y => substrEither x y) = none) →
       c ∉ known → known.find? (fun y => substrEither c y) = some k →
       find_matching_awb (pre ++ c :: cs) known = some k) := by
  have hskip : ∀ (pre cs known : List String),
      (∀ x ∈ pre, x ∉ known ∧ known.find? (fun y => substrEither x y) = none) →
      find_matching_awb (pre ++ cs) known = find_matching_awb cs known := by
    intro pre
    induction pre with
    | nil => intro cs known _; rfl
    | cons p ps ih =>
      intro cs known hpre
      obtain ⟨hp1, hp2⟩ := hpre p (List.mem_cons_self p ps)
      rw [List.cons_append, find_matching_awb, if_neg hp1, hp2]
      exact ih cs known (fun x hx => hpre x (List.mem_cons_of_mem p hx))
  refine ⟨?_, hskip, ?_, ?_⟩
  · intro cs
    induction cs with
    | nil => rintro known ⟨c, hc, _⟩; cases hc
    | cons c cs ih =>
      rintro known ⟨x, hx, hxk⟩
      by_cases hc : c ∈ known
      · exact ⟨c, by rw [find_matching_awb, if_pos hc], hc⟩
      · rw [find_matching_awb, if_neg hc]
        cases hfind : known.find? (fun y => substrEither c y) with
        | some k => exact ⟨k, rfl, List.mem_of_find?_eq_some hfind⟩
        | none =>
          rcases List.mem_cons.mp hx with rfl | hx
          · exact absurd hxk hc
          · exact ih known ⟨x, hx, hxk⟩
  · intro pre cs known c hpre hc
    rw [hskip pre (c :: cs) known hpre, find_matching_awb, if_pos hc]
  · intro pre cs known c k hpre hc hfind
    rw [hskip pre (c :: cs) known hpre, find_matching_awb, if_neg hc, hfind]

theorem lookupIdx_insertItem : ∀ (idx : Index) (k' : String) (it : Item) (k : String),
    lookupIdx (insertItem idx k' it) k =
      if k' = k then some ((lookupIdx idx k).getD [] ++ [it]) else lookupIdx idx k := by
  intro idx
  induction idx with
  | nil =>
    intro k' it k
    by_cases h : k' = k <;> simp [insertItem, lookupIdx, h]
  | cons p rest ih =>
    intro k' it k
    obtain ⟨k'', its⟩ := p
    by_cases h1 : k'' = k'
    · subst h1
      rw [insertItem, if_pos rfl]
      by_cases h2 : k'' = k
      · subst h2
        simp [lookupIdx]
      · simp [lookupIdx, h2]
    · rw [insertItem, if_neg h1]
      by_cases h2 : k'' = k
      · subst h2
        have hne : ¬ k' = k'' := fun h => h1 h.symm
        simp [lookupIdx, hne]
      · simp only [lookupIdx, if_neg h2]
        exact ih k' it k

theorem buildAux_ok_parses : ∀ (rows : List Row) (acc out : Index),
    buildIndexAux acc rows = .ok out →
    ∀ r ∈ rows, validAwbB (normTrack r.awb) = true → ∃ j, itemJumlah r.jumlah = .ok j := by
  intro rows
  induction rows with
  | nil => intro acc out _ r hr; cases hr
  | cons r0 rs ih =>
    intro acc out hok r hr hv
    rw [buildIndexAux] at hok
    rcases List.mem_cons.mp hr with rfl | hr
    · rw [if_pos hv] at hok
      cases hj : itemJumlah r.jumlah with
      | error e => rw [hj] at hok; cases hok
      | ok j => exact ⟨j, rfl⟩
    · by_cases hv0 : validAwbB (normTrack r0.awb) = true
      · rw [if_pos hv0] at hok
        cases hj : itemJumlah r0.jumlah with
        | error e => rw [hj] at hok; cases hok
        | ok j =>
          rw [hj] at hok
          exact ih _ _ hok r hr hv
      · rw [if_neg hv0] at hok
        exact ih _ _ hok r hr hv

theorem buildAux_lookup : ∀ (rows : List Row) (acc out : Index),
    buildIndexAux acc rows = .ok out → ∀ k,
    (∀ its, lookupIdx acc k = some its →
       lookupIdx out k = some (its ++ itemsFor rows k)) ∧
    (lookupIdx acc k = none →
       lookupIdx out k = if itemsFor rows k = [] then none else some (itemsFor rows k)) := by
  intro rows
  induction rows with
  | nil =>
    intro acc out hok k
    rw [buildIndexAux] at hok
    cases hok
    constructor
    · intro its h
      simp [itemsFor, h]
    · intro h
      simp [itemsFor, h]
  | cons r rs ih =>
    intro acc out hok k
    rw [buildIndexAux] at hok
    by_cases hv : validAwbB (normTrack r.awb) = true
    · rw [if_pos hv] at hok
      cases hj : itemJumlah r.jumlah with
      | error e => rw [hj] at hok; cases hok
      | ok j =>
        rw [hj] at hok
        have hitem : rowItem r = some ⟨r.msku, j⟩ := by rw [rowItem, hj]
        by_cases hk : normTrack r.awb = k
        · have hcond : (fun r : Row =>
              validAwbB (normTrack r.awb) && decide (normTrack r.awb = k)) r = true := by
            have hv2 : validAwbB k = true := hk ▸ hv
            simp [hv2, hk]
          have hitems : itemsFor (r :: rs) k = ⟨r.msku, j⟩ :: itemsFor rs k := by
            rw [itemsFor, List.filter_cons, if_pos hcond, List.filterMap_cons, hitem]
            rfl
          have hins := lookupIdx_insertItem acc (normTrack r.awb) ⟨r.msku, j⟩ k
          rw [if_pos hk] at hins
          constructor
          · intro its hacc
            rw [hacc] at hins
            have := (ih _ _ hok k).1 _ hins
            rw [this, hitems]
            simp
          · intro hacc
            rw [hacc] at hins
            have := (ih _ _ hok k).1 _ hins
            rw [this, hitems]
            simp
        · have hcond : (fun r : Row =>
              validAwbB (normTrack r.awb) && decide (normTrack r.awb = k)) r = false := by
            simp [hk]
          have hitems : itemsFor (r :: rs) k = itemsFor rs k := by
            rw [itemsFor, List.filter_cons, if_neg (by simp [hcond])]
            rfl
          have hins := lookupIdx_insertItem acc (normTrack r.awb) ⟨r.msku, j⟩ k
          rw [if_neg hk] at hins
          constructor
          · intro its hacc
            rw [hacc] at hins
            have := (ih _ _ hok k).1 _ hins
            rw [this, hitems]
          · intro hacc
            rw [hacc] at hins
            have := (ih _ _ hok k).2 hins
            rw [this, hitems]
    · rw [if_neg hv] at hok
      have hcond : (fun r : Row =>
          validAwbB (normTrack r.awb) && decide (normTrack r.awb = k)) r = false := by
        simp only [Bool.and_eq_false_iff]
        left
        exact Bool.not_eq_true _ ▸ (by simpa using hv)
      have hitems : itemsFor (r :: rs) k = itemsFor rs k := by
        rw [itemsFor, List.filter_cons, if_neg (by simp [hcond])]
        rfl
      refine ⟨?_, ?_⟩
      · intro its hacc
        rw [(ih _ _ hok k).1 _ hacc, hitems]
      · intro hacc
        rw [(ih _ _ hok k).2 hacc, hitems]

theorem lookupIdx_sortIndex : ∀ (idx : Index) (k : String),
    lookupIdx (sortIndex idx) k
      = (lookupIdx idx k).map (List.insertionSort mskuLeRel) := by
  intro idx
  induction idx with
  | nil => intro k; rfl
  | cons p rest ih =>
    intro k
    obtain ⟨k', its⟩ := p
    by_cases h : k' = k
    · simp [sortIndex, lookupIdx, h]
    · simp only [sortIndex, List.map_cons, lookupIdx, if_neg h]
      exact ih k

theorem lexLe_total : ∀ (a b : List Char), lexLe a b = true ∨ lexLe b a = true := by
  intro a
  induction a with
  | nil => intro b; left; rfl
  | cons x xs ih =>
    intro b
    cases b with
    | nil => right; rfl
    | cons y ys =>
      by_cases h1 : x.toNat < y.toNat
      · left; rw [lexLe, if_pos h1]
      · by_cases h2 : y.toNat < x.toNat
        · right; rw [lexLe, if_pos h2]
        · rcases ih ys with h | h
          · left; rw [lexLe, if_neg h1, if_neg h2]; exact h
          · right; rw [lexLe, if_neg h2, if_neg h1]; exact h

theorem lexLe_trans : ∀ (a b c : List Char),
    lexLe a b = true → lexLe b c = true → lexLe a c = true := by
  intro a
  induction a with
  | nil => intro b c _ _; rfl
  | cons x xs ih =>
    intro b c hab hbc
    cases b with
    | nil => cases hab
    | cons y ys =>
      cases c with
      | nil => cases hbc
      | cons z zs =>
        rw [lexLe] at hab hbc ⊢
        by_cases hxy : x.toNat < y.toNat
        · by_cases hyz : y.toNat < z.toNat
          · rw [if_pos (by omega)]
          · rw [if_neg hyz] at hbc
            by_cases hzy : z.toNat < y.toNat
            · rw [if_pos hzy] at hbc; cases hbc
            · rw [if_pos (by omega)]
        · rw [if_neg hxy] at hab
          by_cases hyx : y.toNat < x.toNat
          · rw [if_pos hyx] at hab; cases hab
          · rw [if_neg hyx] at hab
            by_cases hyz : y.toNat < z.toNat
            · rw [if_pos (by omega)]
            · rw [if_neg hyz] at hbc
              by_cases hzy : z.toNat < y.toNat
              · rw [if_pos hzy] at hbc; cases hbc
              · rw [if_neg hzy] at hbc
                rw [if_neg (by omega), if_neg (by omega)]
                exact ih ys zs hab hbc

instance : IsTotal Item mskuLeRel :=
  ⟨fun a b => by
    rcases lexLe_total a.msku.data b.msku.data with h | h
    · exact Or.inl h
    · exact Or.inr h⟩

instance : IsTrans Item mskuLeRel :=
  ⟨fun a b c hab hbc => lexLe_trans a.msku.data b.msku.data c.msku.data hab hbc⟩

theorem awb_to_items_lookup (rows : List Row) (idx : Index)
    (hok : awb_to_items rows = .ok idx) (k : String) :
    lookupIdx idx k = if itemsFor rows k = [] then none
      else some (List.insertionSort mskuLeRel (itemsFor rows k)) := by
  rw [awb_to_items] at hok
  cases hraw : buildIndexAux [] rows with
  | error e => rw [hraw] at hok; cases hok
  | ok raw =>
    rw [hraw] at hok
    have hidx : idx = sortIndex raw := by
      cases hok
      rfl
    subst hidx
    rw [lookupIdx_sortIndex]
    have := (buildAux_lookup rows [] raw hraw k).2 rfl
    rw [this]
    by_cases h : itemsFor rows k = [] <;> simp [h]

theorem itemsFor_eq_nil_of_invalid (rows : List Row) (k : String)
    (h : validAwbB k = false) : itemsFor rows k = [] := by
  rw [itemsFor]
  have : (rows.filter (fun r =>
      validAwbB (normTrack r.awb) && decide (normTrack r.awb = k))) = [] := by
    rw [List.filter_eq_nil_iff]
    intro r _
    intro hcond
    rw [Bool.and_eq_true] at hcond
    have hk : normTrack r.awb = k := of_decide_eq_true hcond.2
    rw [hk] at hcond
    rw [hcond.1] at h
    cases h
  rw [this]
  rfl

theorem valid_of_itemsFor_ne_nil (rows : List Row) (k : String)
    (h : itemsFor rows k ≠ []) : validAwbB k = true := by
  by_contra hcon
  exact h (itemsFor_eq_nil_of_invalid rows k (Bool.not_eq_true _ ▸ (by simpa using hcon)))

theorem awb_ok_parses (rows : List Row) (idx : Index)
    (hok : awb_to_items rows = .ok idx) :
    ∀ r ∈ rows, validAwbB (normTrack r.awb) = true →
      ∃ j, itemJumlah r.jumlah = .ok j := by
  rw [awb_to_items] at hok
  cases hraw : buildIndexAux [] rows with
  | error e => rw [hraw] at hok; cases hok
  | ok raw => exact buildAux_ok_parses rows [] raw hraw

theorem mem_itemsFor_of_row (rows : List Row) (r : Row) (j : ℤ)
    (hr : r ∈ rows) (hv : validAwbB (normTrack r.awb) = true)
    (hj : itemJumlah r.jumlah = .ok j) :
    (⟨r.msku, j⟩ : Item) ∈ itemsFor rows (normTrack r.awb) := by
  rw [itemsFor]
  refine List.mem_filterMap.mpr ⟨r, ?_, ?_⟩
  · exact List.mem_filter.mpr ⟨hr, by simp [hv]⟩
  · rw [rowItem, hj]

/-- C7: the tracking index excludes every key that is blank or a null sentinel; each stored list is exactly the SKU-sorted (stable insertion sort) row-order item list of the rows sharing that normalized tracking value, hence a permutation of them, pairwise sorted by SKU; and every valid row contributes its item under its normalized key. -/
theorem tracking_index_invariants (rows : List Row) (idx : Index) (hok : awb_to_items rows = .ok idx) :
    (∀ k, validAwbB k = false → lookupIdx idx k = none) ∧
    (∀ k its, lookupIdx idx k = some its →
       validAwbB k = true ∧
       its = List.insertionSort mskuLeRel (itemsFor rows k) ∧
       its.Perm (itemsFor rows k) ∧
       List.Pairwise mskuLeRel its) ∧
    (∀ r ∈ rows, validAwbB (normTrack r.awb) = true →
       ∃ j its, itemJumlah r.jumlah = .ok j ∧
         lookupIdx idx (normTrack r.awb) = some its ∧ (⟨r.msku, j⟩ : Item) ∈ its) := by
  refine ⟨?_, ?_, ?_⟩
  · intro k hk
    rw [awb_to_items_lookup rows idx hok k,
      if_pos (itemsFor_eq_nil_of_invalid rows k hk)]
  · intro k its hits
    rw [awb_to_items_lookup rows idx hok k] at hits
    by_cases h : itemsFor rows k = []
    · rw [if_pos h] at hits; cases hits
    · rw [if_neg h] at hits
      have heq : its = List.insertionSort mskuLeRel (itemsFor rows k) :=
        (Option.some.injEq _ _ ▸ hits).symm
      refine ⟨valid_of_itemsFor_ne_nil rows k h, heq, ?_, ?_⟩
      · rw [heq]
        exact List.perm_insertionSort mskuLeRel (itemsFor rows k)
      · rw [heq]
        exact List.sorted_insertionSort mskuLeRel (itemsFor rows k)
  · intro r hr hv
    obtain ⟨j, hj⟩ := awb_ok_parses rows idx hok r hr hv
    have hmem := mem_itemsFor_of_row rows r j hr hv hj
    have hne : itemsFor rows (normTrack r.awb) ≠ [] := by
      intro hnil
      rw [hnil] at hmem
      cases hmem
    refine ⟨j, List.insertionSort mskuLeRel (itemsFor rows (normTrack r.awb)), hj, ?_, ?_⟩
    · rw [awb_to_items_lookup rows idx hok, if_neg hne]
    · exact ((List.perm_insertionSort mskuLeRel _).mem_iff).mpr hmem

/-- C5 counterexample: a row whose quantity cell holds the non-numeric text `"abc"` does not get quantity 1: `int("abc")` raises, so loading the manifest fails with the conversion error instead of producing an index. -/
theorem quantity_non_numeric_cex :
    pyIntOfString "abc" = none ∧
    awb_to_items [⟨"SPX1", "A", Cell.text "abc"⟩] = .error intConvError := by
  decide

/-- C5 amended: the quantity defaults to 1 only when the cell is blank (`NaN`/`None`, i.e. `pd.notna` is false); a numeric cell is truncated; a non-blank non-numeric cell makes the whole load fail (status 500), so loading does fail on such a row; blank-quantity rows are loaded with quantity 1 under their tracking key. -/
theorem quantity_default_amended :
    itemJumlah Cell.na = .ok 1 ∧
    (∀ s, pyIntOfString s = none → itemJumlah (Cell.text s) = .error intConvError) ∧
    (∀ (rows : List Row) (r : Row) (s : String), r ∈ rows →
       validAwbB (normTrack r.awb) = true → r.jumlah = Cell.text s →
       pyIntOfString s = none → ∀ idx, awb_to_items rows ≠ .ok idx) ∧
    (∀ (rows : List Row) (r : Row) (idx : Index), awb_to_items rows = .ok idx →
       r ∈ rows → validAwbB (normTrack r.awb) = true → r.jumlah = Cell.na →
       ∃ its, lookupIdx idx (normTrack r.awb) = some its ∧ (⟨r.msku, 1⟩ : Item) ∈ its) := by
  refine ⟨rfl, ?_, ?_, ?_⟩
  · intro s hs
    rw [itemJumlah, hs]
  · intro rows r s hr hv hcell hparse idx hok
    obtain ⟨j, hj⟩ := awb_ok_parses rows idx hok r hr hv
    rw [hcell, itemJumlah, hparse] at hj
    cases hj
  · intro rows r idx hok hr hv hcell
    have hj : itemJumlah r.jumlah = .ok 1 := by rw [hcell]; rfl
    have hmem := mem_itemsFor_of_row rows r 1 hr hv hj
    have hne : itemsFor rows (normTrack r.awb) ≠ [] := by
      intro hnil
      rw [hnil] at hmem
      cases hmem
    refine ⟨List.insertionSort mskuLeRel (itemsFor rows (normTrack r.awb)), ?_, ?_⟩
    · rw [awb_to_items_lookup rows idx hok, if_neg hne]
    · exact ((List.perm_insertionSort mskuLeRel _).mem_iff).mpr hmem

theorem find_matching_mem (cands known : List String) (r : String)
    (h : find_matching_awb cands known = some r) : r ∈ known := by
  induction cands with
  | nil => cases h
  | cons c cs ih =>
    rw [find_matching_awb] at h
    by_cases hc : c ∈ known
    · rw [if_pos hc] at h
      cases h
      exact hc
    · rw [if_neg hc] at h
      cases hfind : known.find? (fun y => substrEither c y) with
      | some k =>
        rw [hfind] at h
        cases h
        exact List.mem_of_find?_eq_some hfind
      | none =>
        rw [hfind] at h
        exact ih h

theorem mem_all_awbs_iff (rows : List Row) (a : String) :
    a ∈ all_awbs rows ↔
      ∃ r ∈ rows, normTrack r.awb = a ∧ validAwbB a = true := by
  rw [all_awbs, dedupeFirst, mem_dedupeSeen]
  simp only [List.not_mem_nil, not_false_iff, and_true, List.mem_filter, List.mem_map]
  constructor
  · rintro ⟨⟨r, hr, rfl⟩, hv⟩
    exact ⟨r, hr, rfl, hv⟩
  · rintro ⟨r, hr, rfl, hv⟩
    exact ⟨⟨r, hr, rfl⟩, hv⟩

theorem itemsFor_ne_nil_iff (rows : List Row) (idx : Index) (a : String)
    (hok : awb_to_items rows = .ok idx) :
    itemsFor rows a ≠ [] ↔ ∃ r ∈ rows, normTrack r.awb = a ∧ validAwbB a = true := by
  constructor
  · intro hne
    cases hits : itemsFor rows a with
    | nil => exact absurd hits hne
    | cons it rest =>
      have hmem : it ∈ itemsFor rows a := by rw [hits]; exact List.mem_cons_self _ _
      rw [itemsFor] at hmem
      obtain ⟨r, hrf, _⟩ := List.mem_filterMap.mp hmem
      have := List.mem_filter.mp hrf
      obtain ⟨hr, hcond⟩ := this
      rw [Bool.and_eq_true] at hcond
      have hk : normTrack r.awb = a := of_decide_eq_true hcond.2
      exact ⟨r, hr, hk, hk ▸ hcond.1⟩
  · rintro ⟨r, hr, rfl, hv⟩
    obtain ⟨j, hj⟩ := awb_ok_parses rows idx hok r hr hv
    have hmem := mem_itemsFor_of_row rows r j hr hv hj
    intro hnil
    rw [hnil] at hmem
    cases hmem

theorem paginate_cons (l : List Item) (n : ℕ) :
    ∃ c0 rest, paginate l n = c0 :: rest := by
  rw [paginate]
  by_cases h : l.length ≤ n
  · exact ⟨l, [], by rw [if_pos h]⟩
  · exact ⟨l.take n, chunkEvery 25 (l.drop n), by rw [if_neg h]⟩

/-- C10: the matcher returns `none` or a member of the known set; under a successfully built index, the known set `all_awbs` has exactly the index keys, so every matched tracking number has a manifest entry, and a page whose match came from the known set is composed as an overlay page, never passed through verbatim. -/
theorem matcher_result_in_known_set :
    (∀ (cands known : List String) (r : String),
       find_matching_awb cands known = some r → r ∈ known) ∧
    (∀ (rows : List Row) (idx : Index), awb_to_items rows = .ok idx →
       ∀ a, a ∈ all_awbs rows ↔ lookupIdx idx a ≠ none) ∧
    (∀ (rows : List Row) (idx : Index) (cands : List String) (r : String),
       awb_to_items rows = .ok idx →
       find_matching_awb cands (all_awbs rows) = some r →
       ∃ its, lookupIdx idx r = some its) ∧
    (∀ (rows : List Row) (idx : Index) (p : PageRec) (r : String),
       awb_to_items rows = .ok idx →
       p.awb = some r → r ∈ all_awbs rows →
       ∃ c0 rest, composePage idx p = OutPage.overlay p.page_num r c0 :: rest) := by
  have key : ∀ (rows : List Row) (idx : Index), awb_to_items rows = .ok idx →
      ∀ a, a ∈ all_awbs rows ↔ lookupIdx idx a ≠ none := by
    intro rows idx hok a
    rw [mem_all_awbs_iff, ← itemsFor_ne_nil_iff rows idx a hok,
      awb_to_items_lookup rows idx hok a]
    by_cases h : itemsFor rows a = [] <;> simp [h]
  have hlookup : ∀ (rows : List Row) (idx : Index) (r : String),
      awb_to_items rows = .ok idx → r ∈ all_awbs rows →
      ∃ its, lookupIdx idx r = some its := by
    intro rows idx r hok hmem
    have := (key rows idx hok r).mp hmem
    cases h : lookupIdx idx r with
    | none => exact absurd h this
    | some its => exact ⟨its, rfl⟩
  refine ⟨fun cands known r h => find_matching_mem cands known r h, key, ?_, ?_⟩
  · intro rows idx cands r hok hfind
    exact hlookup rows idx r hok (find_matching_mem _ _ _ hfind)
  · intro rows idx p r hok hawb hmem
    have hvalid : validAwbB r = true := by
      obtain ⟨_, _, _, hv⟩ := (mem_all_awbs_iff rows r).mp hmem
      exact hv
    have hne : r ≠ "" := by
      intro h
      rw [h] at hvalid
      cases hvalid
    obtain ⟨its, hits⟩ := hlookup rows idx r hok hmem
    obtain ⟨c0, rest, hpag⟩ :=
      paginate_cons its (calculate_available_rows p.height p.clear_start_y).toNat
    refine ⟨c0, rest.map (OutPage.continuation r), ?_⟩
    simp [composePage, hawb, hne, hits, hpag]

/-- C6: a scanned page whose tracking number is unmatched, or matched to no manifest entry, contributes exactly its verbatim copy to the output, in its original scan position; no overlay, clearing rectangle or table page is emitted for it. -/
theorem unmatched_page_verbatim (idx : Index) (pre post : List PageRec) (p : PageRec)
    (h : p.awb = none ∨ ∃ a, p.awb = some a ∧ lookupIdx idx a = none) :
    composeAll idx (pre ++ p :: post)
      = composeAll idx pre ++ [OutPage.verbatim p.page_num] ++ composeAll idx post := by
  have hpage : composePage idx p = [OutPage.verbatim p.page_num] := by
    rcases h with h | ⟨a, ha, hl⟩
    · rw [composePage, h]
    · by_cases he : a = ""
      · simp [composePage, ha, he]
      · simp [composePage, ha, he, hl]
  simp [composeAll, List.map_append, List.flatten_append, hpage]

theorem mem_renameCol {cols : List String} {alt target x : String}
    (h : x ∈ renameCol cols alt target) : x ∈ cols ∨ x = target := by
  rw [renameCol] at h
  obtain ⟨c, hc, hcx⟩ := List.mem_map.mp h
  by_cases hca : c = alt
  · rw [if_pos hca] at hcx
    exact Or.inr hcx.symm
  · rw [if_neg hca] at hcx
    exact Or.inl (hcx ▸ hc)

theorem not_mem_applyAlias {cols : List String} {t : String} {alts : List String}
    {x : String} (hx : x ∉ cols) (hxt : x ≠ t) : x ∉ applyAlias cols t alts := by
  rw [applyAlias]
  by_cases h1 : t ∈ cols
  · rw [if_pos h1]
    exact hx
  · rw [if_neg h1]
    cases hfind : alts.find? (fun a => decide (a ∈ cols)) with
    | some alt =>
      intro hmem
      rcases mem_renameCol hmem with h | h
      · exact hx h
      · exact hxt h
    | none => exact hx

theorem applyAlias_skip {cols : List String} {t : String} {alts : List String}
    (h : ∀ a ∈ alts, a ∉ cols) : applyAlias cols t alts = cols := by
  rw [applyAlias]
  by_cases h1 : t ∈ cols
  · rw [if_pos h1]
  · rw [if_neg h1]
    have : alts.find? (fun a => decide (a ∈ cols)) = none :=
      List.find?_eq_none.mpr (fun a ha => by simpa using h a ha)
    rw [this]

/-- C9: when none of the aliases of some required logical column occur among the spreadsheet columns, the request fails with a status-400 missing-columns error whose payload names that canonical column, and no output document is produced. -/
theorem missing_columns_error_400 (findall : AwbPattern → String → List String)
    (cols : List String) (rows : List Row) (pages : List ScanPage)
    (target : String) (alts : List String)
    (hmem : (target, alts) ∈ col_mapping)
    (hnone : ∀ a ∈ alts, a ∉ cols) :
    ∃ missing, process_labels findall cols rows pages
        = .error (.missingColumns missing) ∧
      target ∈ missing ∧ (ApiError.missingColumns missing).status = 400 ∧
      ∀ out, process_labels findall cols rows pages ≠ .ok out := by
  have hnorm : normalizeColumns cols
      = applyAlias (applyAlias (applyAlias cols "AWB/No. Tracking"
          ["AWB/No. Tracking", "AWB", "No. Tracking", "Tracking Number", "Resi", "No Resi"])
          "MSKU" ["MSKU", "SKU", "Nama SKU", "Product SKU", "Master SKU"])
          "Jumlah" ["Jumlah", "Qty", "Quantity", "QTY"] := rfl
  have htarget : target ∉ normalizeColumns cols ∧ target ∈ required_cols := by
    simp only [col_mapping, List.mem_cons, List.not_mem_nil, or_false,
      Prod.mk.injEq] at hmem
    rcases hmem with ⟨rfl, rfl⟩ | ⟨rfl, rfl⟩ | ⟨rfl, rfl⟩
    · constructor
      · rw [hnorm]
        have h0 : "AWB/No. Tracking" ∉ cols := hnone "AWB/No. Tracking" (by decide)
        have h1 := applyAlias_skip (t := "AWB/No. Tracking") hnone
        rw [h1]
        exact not_mem_applyAlias (not_mem_applyAlias h0 (by decide)) (by decide)
      · decide
    · constructor
      · rw [hnorm]
        have h0 : "MSKU" ∉ cols := hnone "MSKU" (by decide)
        have hne1 : ∀ a ∈ (["MSKU", "SKU", "Nama SKU", "Product SKU", "Master SKU"] :
            List String), a ≠ "AWB/No. Tracking" := by decide
        have hstep1 : ∀ a ∈ (["MSKU", "SKU", "Nama SKU", "Product SKU", "Master SKU"] :
            List String), a ∉ applyAlias cols "AWB/No. Tracking"
              ["AWB/No. Tracking", "AWB", "No. Tracking", "Tracking Number", "Resi", "No Resi"] :=
          fun a ha => not_mem_applyAlias (hnone a ha) (hne1 a ha)
        rw [applyAlias_skip hstep1]
        exact not_mem_applyAlias (hstep1 "MSKU" (by decide)) (by decide)
      · decide
    · constructor
      · rw [hnorm]
        have hne1 : ∀ a ∈ (["Jumlah", "Qty", "Quantity", "QTY"] : List String),
            a ≠ "AWB/No. Tracking" := by decide
        have hne2 : ∀ a ∈ (["Jumlah", "Qty", "Quantity", "QTY"] : List String),
            a ≠ "MSKU" := by decide
        have hstep1 : ∀ a ∈ (["Jumlah", "Qty", "Quantity", "QTY"] : List String),
            a ∉ applyAlias cols "AWB/No. Tracking"
              ["AWB/No. Tracking", "AWB", "No. Tracking", "Tracking Number", "Resi", "No Resi"] :=
          fun a ha => not_mem_applyAlias (hnone a ha) (hne1 a ha)
        have hstep2 : ∀ a ∈ (["Jumlah", "Qty", "Quantity", "QTY"] : List String),
            a ∉ applyAlias (applyAlias cols "AWB/No. Tracking"
              ["AWB/No. Tracking", "AWB", "No. Tracking", "Tracking Number", "Resi", "No Resi"])
              "MSKU" ["MSKU", "SKU", "Nama SKU", "Product SKU", "Master SKU"] :=
          fun a ha => not_mem_applyAlias (hstep1 a ha) (hne2 a ha)
        rw [applyAlias_skip hstep2]
        exact hstep2 "Jumlah" (by decide)
      · decide
  have hmiss : target ∈ missingColumns cols :=
    List.mem_filter.mpr ⟨htarget.2, by simp [htarget.1]⟩
  have hne_nil : missingColumns cols ≠ [] := List.ne_nil_of_mem hmiss
  have hproc : process_labels findall cols rows pages
      = .error (.missingColumns (missingColumns cols)) := by
    rw [process_labels]
    simp only [if_pos hne_nil]
  exact ⟨missingColumns cols, hproc, hmiss, rfl, fun out h => by rw [hproc] at h; cases h⟩

/-- Witness for the C3 theorem at the spec scenario geometry. -/
theorem calculate_available_rows_floor_min_one_witness :
    calculate_available_rows 842 120 = max 1 (⌊(((842 : ℚ)) - 120 - 30) / 18⌋ - 1) ∧
    1 ≤ calculate_available_rows 842 120 :=
  calculate_available_rows_floor_min_one 842 120

/-- Witness for the C2 theorem at a one-item list with one available row. -/
theorem paginate_exhaustive_sizes_witness :
    1 ≤ 1 ∧ (paginate [({ msku := "A", jumlah := 1 } : Item)] 1).flatten
      = [({ msku := "A", jumlah := 1 } : Item)] :=
  ⟨by decide, (paginate_exhaustive_sizes [⟨"A", 1⟩] 1 (by decide)).1⟩

/-- Witness for the amended C1 theorem: after a candidate with no hit of
either kind, an exact-member candidate is returned. -/
theorem find_matching_awb_interleaved_witness :
    "X" ∈ (["X"] : List String) ∧
    find_matching_awb (["A"] ++ "X" :: []) ["X"] = some "X" :=
  ⟨by decide,
   find_matching_awb_interleaved.2.2.1 ["A"] [] ["X"] "X" (by decide) (by decide)⟩

/-- Witness for the amended C5 theorem: a non-numeric quantity makes the
load fail. -/
theorem quantity_default_amended_witness :
    awb_to_items [⟨"SPX1", "A", Cell.text "abc"⟩] ≠ .ok [] :=
  quantity_default_amended.2.2.1 [⟨"SPX1", "A", Cell.text "abc"⟩]
    ⟨"SPX1", "A", Cell.text "abc"⟩ "abc" (by decide) (by decide) (by decide) (by decide) []

/-- Witness for the C6 theorem on a one-page document with no match. -/
theorem unmatched_page_verbatim_witness :
    composeAll [] ([] ++ (⟨0, 595, 842, 120, none⟩ : PageRec) :: [])
      = composeAll [] [] ++ [OutPage.verbatim 0] ++ composeAll [] [] :=
  unmatched_page_verbatim [] [] [] ⟨0, 595, 842, 120, none⟩ (Or.inl rfl)

/-- Witness for the C7 theorem on a concrete two-row manifest. -/
theorem tracking_index_invariants_witness :
    awb_to_items [⟨" spx1 ", "B", Cell.num 2⟩, ⟨"SPX1", "A", Cell.na⟩]
      = .ok [("SPX1", [⟨"A", 1⟩, ⟨"B", 2⟩])] ∧
    lookupIdx [("SPX1", [⟨"A", 1⟩, ⟨"B", 2⟩])] "NAN" = none :=
  ⟨by decide,
   (tracking_index_invariants [⟨" spx1 ", "B", Cell.num 2⟩, ⟨"SPX1", "A", Cell.na⟩]
      [("SPX1", [⟨"A", 1⟩, ⟨"B", 2⟩])] (by decide)).1 "NAN" (by decide)⟩

/-- Witness for the C8 theorem at a concrete regex oracle and text. -/
theorem extract_candidates_nodup_upper_order_witness :
    (extract_all_awb_candidates (fun _ _ => ["spxid123"]) "page text").Nodup :=
  (extract_candidates_nodup_upper_order (fun _ _ => ["spxid123"]) "page text").1

/-- Witness for the C9 theorem: a spreadsheet with no tracking-number-like
column yields an error response, not a document. -/
theorem missing_columns_error_400_witness :
    (process_labels (fun _ _ => []) ["MSKU", "Jumlah"] [] []).isOk = false := by
  obtain ⟨missing, hm, -, -, -⟩ :=
    missing_columns_error_400 (fun _ _ => []) ["MSKU", "Jumlah"] [] []
      "AWB/No. Tracking"
      ["AWB/No. Tracking", "AWB", "No. Tracking", "Tracking Number", "Resi", "No Resi"]
      (by decide) (by decide)
  rw [hm]
  rfl

/-- Witness for the C10 theorem on a concrete one-row manifest. -/
theorem matcher_result_in_known_set_witness :
    ("SPX1" ∈ all_awbs [⟨"SPX1", "A", Cell.na⟩] ↔
      lookupIdx [("SPX1", [⟨"A", 1⟩])] "SPX1" ≠ none) :=
  matcher_result_in_known_set.2.1 [⟨"SPX1", "A", Cell.na⟩] [("SPX1", [⟨"A", 1⟩])]
    (by decide) "SPX1"


end KsApp
